import Mathlib

/-!
Verification of the reactor runtime core (`reactor-rs`): shallow embedding of
the scheduler event loop, reaction waves, the assembler's flow graph
(topological sort, port-descendant computation, port binding checks) and the
port value/dependency model, with theorems settling the specification claims.
-/

/-- A logical tag: pair of a physical instant and a microstep, ordered
lexicographically (embeds `LogicalTime` from `runtime/scheduler.rs` /
`runtime/time.rs`; instants are modelled as naturals). -/
structure LogicalTime where
  instant : Nat
  microstep : Nat
deriving DecidableEq

/-- Strict lexicographic comparison of tags, as a Boolean. -/
def LogicalTime.ltB (a b : LogicalTime) : Bool :=
  a.instant < b.instant || (a.instant == b.instant && a.microstep < b.microstep)

/-- Embeds `SyncScheduler::catch_up_physical_time` (scheduler.rs lines
163-172). The parameter `now` is the physical time read at entry.  The sleep
is modelled as exact (after sleeping `t` the clock reads `now + t`), and
`LogicalTime::now()` (whose source file `runtime/time.rs` is absent; the spec
fixes its microstep to 0, as the in-src else-branch also does) is modelled as
the current physical instant with microstep 0.  Returns the slept duration
and the resulting logical time. -/
def catchUpPhysicalTime (now : Nat) (upTo : LogicalTime) : Nat × LogicalTime :=
  if now < upTo.instant then
    let t := upTo.instant - now
    (t, ⟨now + t, 0⟩)
  else
    (0, ⟨now, 0⟩)

/-- C3 (counterexample): at physical time 10 and event tag (10, 1) the code
takes the else-branch of `catch_up_physical_time` and returns logical time
(10, 0): the event's microstep 1 is discarded, contradicting the claim that
`current_tag = (max(now(), tag.instant), tag.microstep)` preserves the
microstep. -/
theorem catch_up_discards_microstep :
    (catchUpPhysicalTime 10 ⟨10, 1⟩).2 = ⟨10, 0⟩ ∧
      ((catchUpPhysicalTime 10 ⟨10, 1⟩).2.microstep ≠ (1 : Nat)) := by
  constructor <;> decide

/-- C3 (amended): for every entry time `now` and event tag `upTo`,
`catch_up_physical_time` sleeps for `upTo.instant - now` exactly when
`now < upTo.instant` (else does not sleep), and the resulting logical time is
`(max now upTo.instant, 0)` — the microstep is reset to 0, not preserved.  In
particular the physical instant at which the wave then runs is at least
`upTo.instant`. -/
theorem catch_up_physical_time_spec (now : Nat) (upTo : LogicalTime) :
    catchUpPhysicalTime now upTo =
      ((if now < upTo.instant then upTo.instant - now else 0),
        ⟨max now upTo.instant, 0⟩) ∧
      upTo.instant ≤ (catchUpPhysicalTime now upTo).2.instant := by
  unfold catchUpPhysicalTime
  by_cases h : now < upTo.instant <;> simp [h] <;> omega

/-- An event of the scheduler queue: a processing tag and the list of
reactions (by integer invoker id) to execute (embeds `Event` in
`runtime/scheduler.rs`; derived equality matches the Rust `#[derive(Eq)]`,
which compares the tag and the whole reaction list). -/
structure SchedEvent where
  processAt : LogicalTime
  todo : List Nat
deriving DecidableEq

/-- Embeds `PriorityQueue::push` as used by `SyncScheduler::push_event`:
the hash-based priority queue keeps at most one copy of events that compare
equal (equal tag and equal reaction list); a distinct event is appended. -/
def pushEvent (q : List SchedEvent) (e : SchedEvent) : List SchedEvent :=
  if e ∈ q then q else q ++ [e]

/-- Embeds popping the minimum-tag event from the priority queue
(`self.queue.pop()` with priority `Reverse(LogicalTime)`): returns the first
event holding the smallest tag, and the rest of the queue. -/
def popMinEvent : List SchedEvent → Option (SchedEvent × List SchedEvent)
  | [] => none
  | e :: es =>
    match popMinEvent es with
    | none => some (e, [])
    | some (f, fs) =>
      if LogicalTime.ltB f.processAt e.processAt then some (f, e :: fs)
      else some (e, es)

/-- The immutable data a wave consults: which ports each reaction sets when
it fires (abstraction of the reaction bodies' `ctx.set` calls, in program
order), and the downstream reactions recorded for each port
(`reactions_by_port` of the `Schedulable` snapshot). -/
structure Sched where
  setsPorts : Nat → List Nat
  reactionsByPort : Nat → List Nat

/-- State of a `ReactionWave` (scheduler.rs lines 210-269): the FIFO of
pending reactions (`todo : LinkedList`), the deduplication bitset (`done`,
here a list of already-marked ids), the log of reactions fired so far, and an
instrumentation log recording, for each port write, the batch of reactions
actually appended by `enqueue_now`. -/
structure WaveSt where
  todo : List Nat
  done : List Nat
  fired : List Nat
  log : List (Nat × List Nat)

/-- Embeds the loop body of `ReactionWave::enqueue_now` (scheduler.rs lines
237-246): walk the downstream list, skip ids already in the bitset, mark and
collect the others.  Returns the appended batch (in order) and the updated
bitset. -/
def enqueueBatch : List Nat → List Nat → List Nat × List Nat
  | done, [] => ([], done)
  | done, r :: rs =>
    if r ∈ done then enqueueBatch done rs
    else
      let p := enqueueBatch (r :: done) rs
      (r :: p.1, p.2)

/-- One `ctx.set` per port in the list: each write appends
`enqueue_now(reactions_by_port[p])` to the wave FIFO and logs the batch. -/
def firePorts (sch : Sched) : List Nat → WaveSt → WaveSt
  | [], s => s
  | p :: ps, s =>
    let b := enqueueBatch s.done (sch.reactionsByPort p)
    firePorts sch ps
      { todo := s.todo ++ b.1, done := b.2, fired := s.fired,
        log := s.log ++ [(p, b.1)] }

/-- Embeds `ReactionWave::consume` (pop the FIFO front, fire the reaction —
which performs its port writes in order — and repeat), with explicit fuel. -/
def waveRun (sch : Sched) : Nat → WaveSt → WaveSt
  | 0, s => s
  | fuel + 1, s =>
    match s.todo with
    | [] => s
    | r :: rest =>
      waveRun sch fuel
        (firePorts sch (sch.setsPorts r)
          { todo := rest, done := s.done, fired := s.fired ++ [r], log := s.log })

/-- A fresh wave for an event's reactions: `SyncScheduler::new_wave` starts
with the event's `todo` list, an empty bitset and nothing fired. -/
def waveInit (init : List Nat) : WaveSt :=
  { todo := init, done := [], fired := [], log := [] }

/-- Asynchronous inputs to the event loop: the events drained from the
channel without blocking at each iteration (`try_recv` loop), and the result
of the blocking `recv_timeout` call at each iteration (none = timeout or
disconnect). -/
structure LoopInputs where
  drains : Nat → List SchedEvent
  recvs : Nat → Option SchedEvent

/-- Embeds the main event loop of `SyncScheduler::launch_async`
(scheduler.rs lines 122-143): drain the channel, pop the minimum-tag event
and run its wave (recording each firing against the event's tag), else block
on the channel; break when the blocking receive yields nothing.  Returns
`some (final queue, trace)` when the loop exits normally, `none` when fuel
runs out first. -/
def loopRun (sch : Sched) (inp : LoopInputs) (waveFuel : Nat) :
    Nat → Nat → List SchedEvent → List (LogicalTime × Nat) →
      Option (List SchedEvent × List (LogicalTime × Nat))
  | 0, _, _, _ => none
  | fuel + 1, i, q, tr =>
    let q1 := (inp.drains i).foldl pushEvent q
    match popMinEvent q1 with
    | some (e, q2) =>
      let w := waveRun sch waveFuel (waveInit e.todo)
      loopRun sch inp waveFuel fuel (i + 1) q2
        (tr ++ w.fired.map (fun r => (e.processAt, r)))
    | none =>
      match inp.recvs i with
      | some e => loopRun sch inp waveFuel fuel (i + 1) (pushEvent q1 e) tr
      | none => some (q1, tr)

/-- A scheduler snapshot with no port propagation at all (reactions set no
ports); used for queue-level scenarios. -/
def emptySched : Sched := ⟨fun _ => [], fun _ => []⟩

/-- Channel inputs that deliver nothing: the first blocking receive times
out. -/
def silentInputs : LoopInputs := ⟨fun _ => [], fun _ => none⟩

/-- C1 (counterexample): the queue accepts two *distinct* events that share
the tag (0,0) — `Event`'s derived equality also compares the reaction lists,
so the priority queue does not coalesce them — and the loop then runs two
separate waves at that tag, firing reaction 0 twice.  The claim that a
reaction fires at most once per tag is therefore false. -/
theorem same_tag_events_fire_reaction_twice :
    loopRun emptySched silentInputs 2 4 0
        (pushEvent (pushEvent [] ⟨⟨0, 0⟩, [0]⟩) ⟨⟨0, 0⟩, [0, 1]⟩) [] =
      some ([], [(⟨0, 0⟩, 0), (⟨0, 0⟩, 0), (⟨0, 0⟩, 1)]) ∧
    ¬ ([(⟨0, 0⟩, 0), (⟨0, 0⟩, 0), (⟨0, 0⟩, 1)] :
        List (LogicalTime × Nat)).count (⟨0, 0⟩, 0) ≤ 1 := by
  constructor <;> decide

/-- The bitset discipline of `enqueue_now`, measured for one reaction id:
the number of copies of `r` a single batch appends, plus one if `r` is still
outside the resulting bitset, never exceeds one-if-`r`-was-outside before. -/
theorem enqueueBatch_measure (r : Nat) :
    ∀ (l done : List Nat),
      (enqueueBatch done l).1.count r +
          (if r ∈ (enqueueBatch done l).2 then 0 else 1) ≤
        (if r ∈ done then 0 else 1) := by
  intro l
  induction l with
  | nil => intro done; simp [enqueueBatch]
  | cons a t ih =>
    intro done
    by_cases hmem : a ∈ done
    · simpa [enqueueBatch, hmem] using ih done
    · have h := ih (a :: done)
      have h1 : (enqueueBatch done (a :: t)).1
          = a :: (enqueueBatch (a :: done) t).1 := by
        simp [enqueueBatch, hmem]
      have h2 : (enqueueBatch done (a :: t)).2
          = (enqueueBatch (a :: done) t).2 := by
        simp [enqueueBatch, hmem]
      rw [h1, h2]
      by_cases hra : r = a
      · subst hra
        rw [List.count_cons_self, if_neg hmem]
        simp only [List.mem_cons, true_or, if_pos] at h
        omega
      · rw [show List.count r (a :: (enqueueBatch (a :: done) t).1)
              = List.count r (enqueueBatch (a :: done) t).1
            from List.count_cons_of_ne hra _]
        simp only [List.mem_cons, hra, false_or] at h
        exact h

/-- The per-reaction measure `fired + todo + still-unmarked` of a wave
state. -/
def waveMeasure (r : Nat) (s : WaveSt) : Nat :=
  s.fired.count r + s.todo.count r + (if r ∈ s.done then 0 else 1)

/-- Port writes never increase the wave measure: each `enqueue_now` batch
either leaves `r` alone or appends it once while marking it in the bitset. -/
theorem firePorts_measure (sch : Sched) (r : Nat) :
    ∀ (ps : List Nat) (s : WaveSt),
      waveMeasure r (firePorts sch ps s) ≤ waveMeasure r s := by
  intro ps
  induction ps with
  | nil => intro s; simp [firePorts]
  | cons p pt ih =>
    intro s
    refine le_trans (ih _) ?_
    have h := enqueueBatch_measure r (sch.reactionsByPort p) s.done
    simp only [waveMeasure, List.count_append]
    omega

/-- Firing reactions never increases the wave measure. -/
theorem waveRun_measure (sch : Sched) (r : Nat) :
    ∀ (fuel : Nat) (s : WaveSt),
      waveMeasure r (waveRun sch fuel s) ≤ waveMeasure r s := by
  intro fuel
  induction fuel with
  | zero => intro s; simp [waveRun]
  | succ f ih =>
    intro s
    match hs : s.todo with
    | [] => simp [waveRun, hs]
    | x :: rest =>
      simp only [waveRun, hs]
      refine le_trans (ih _) (le_trans (firePorts_measure sch r _ _) ?_)
      simp [waveMeasure, hs, List.count_cons]
      omega

/-- C1 (amended): within one wave, the `done` bitset lets `enqueue_now`
append a given reaction at most once, so a reaction fires at most once more
than its multiplicity in the event's initial reaction list.  (The
at-most-once-per-tag claim itself fails: initial reactions are never marked
in the bitset, and distinct events sharing a tag are not coalesced by the
queue.) -/
theorem wave_enqueues_reaction_at_most_once (sch : Sched) (fuel : Nat)
    (init : List Nat) (r : Nat) :
    ((waveRun sch fuel (waveInit init)).fired.count r) ≤ init.count r + 1 := by
  have hm : waveMeasure r (waveInit init) = init.count r + 1 := by
    simp [waveMeasure, waveInit]
  have h := waveRun_measure sch r fuel (waveInit init)
  rw [hm] at h
  unfold waveMeasure at h
  omega

/-- Popping from the priority queue yields nothing exactly when the queue is
empty. -/
theorem popMinEvent_eq_none_iff (q : List SchedEvent) :
    popMinEvent q = none ↔ q = [] := by
  cases q with
  | nil => simp [popMinEvent]
  | cons e es =>
    simp only [popMinEvent]
    cases h : popMinEvent es with
    | none => simp
    | some p =>
      cases p with
      | mk f fs =>
        by_cases hlt : LogicalTime.ltB f.processAt e.processAt <;> simp [hlt]

/-- C10: whenever the event loop of `launch_async` exits normally (the
blocking receive timed out or disconnected), the priority queue is empty at
that moment — the loop only breaks after `pop` returned nothing and the
blocking receive added nothing — so the assertion `Program exited with
pending events!` placed after the loop never fails. -/
theorem loop_exit_queue_empty (sch : Sched) (inp : LoopInputs)
    (waveFuel : Nat) :
    ∀ (fuel i : Nat) (q : List SchedEvent) (tr : List (LogicalTime × Nat))
      (qf : List SchedEvent) (trf : List (LogicalTime × Nat)),
      loopRun sch inp waveFuel fuel i q tr = some (qf, trf) → qf = [] := by
  intro fuel
  induction fuel with
  | zero =>
    intro i q tr qf trf h
    simp [loopRun] at h
  | succ f ih =>
    intro i q tr qf trf h
    simp only [loopRun] at h
    cases hpop : popMinEvent ((inp.drains i).foldl pushEvent q) with
    | some p =>
      cases p with
      | mk e q2 =>
        rw [hpop] at h
        exact ih _ _ _ _ _ h
    | none =>
      rw [hpop] at h
      cases hr : inp.recvs i with
      | some e =>
        rw [hr] at h
        exact ih _ _ _ _ _ h
      | none =>
        rw [hr] at h
        simp only [Option.some.injEq, Prod.mk.injEq] at h
        rcases h with ⟨hq, -⟩
        rw [← hq]
        exact (popMinEvent_eq_none_iff _).mp hpop

/-- C10 (witness): a run of the loop on an empty queue with silent channel
inputs exits in its first iteration; the theorem applies and confirms the
final queue is empty. -/
theorem loop_exit_queue_empty_witness :
    loopRun emptySched silentInputs 1 1 0 [] [] = some ([], []) ∧
      ([] : List SchedEvent) = [] :=
  ⟨by decide,
    loop_exit_queue_empty emptySched silentInputs 1 1 0 [] [] [] [] (by decide)⟩


/-- Each `enqueue_now` batch is an order-preserving sublist of the
`reactions_by_port` list it filters. -/
theorem enqueueBatch_sublist : ∀ (l done : List Nat),
    (enqueueBatch done l).1.Sublist l := by
  intro l
  induction l with
  | nil => intro done; simp [enqueueBatch]
  | cons a t ih =>
    intro done
    by_cases hmem : a ∈ done
    · simp only [enqueueBatch, if_pos hmem]
      exact (ih done).cons a
    · have h1 : (enqueueBatch done (a :: t)).1
          = a :: (enqueueBatch (a :: done) t).1 := by
        simp [enqueueBatch, hmem]
      rw [h1]
      exact (ih (a :: done)).cons₂ a

/-- Port writes preserve the wave bookkeeping equation: the fired trace plus
the pending FIFO always equals the initial todo list followed by the joined
batches of the log. -/
theorem firePorts_trace_inv (sch : Sched) (init : List Nat) :
    ∀ (ps : List Nat) (s : WaveSt),
      s.fired ++ s.todo = init ++ (s.log.map Prod.snd).flatten →
      (firePorts sch ps s).fired ++ (firePorts sch ps s).todo
        = init ++ ((firePorts sch ps s).log.map Prod.snd).flatten := by
  intro ps
  induction ps with
  | nil => intro s h; simpa [firePorts] using h
  | cons p pt ih =>
    intro s h
    simp only [firePorts]
    apply ih
    simp only [List.map_append, List.flatten_append, List.map_cons, List.map_nil,
      List.flatten_cons, List.flatten_nil, List.append_nil]
    rw [← List.append_assoc, h, List.append_assoc]

/-- Port writes only append to the log, and every appended entry is a batch
filtered from the corresponding `reactions_by_port` list. -/
theorem firePorts_log_inv (sch : Sched) :
    ∀ (ps : List Nat) (s : WaveSt),
      (∀ pr ∈ s.log, pr.2.Sublist (sch.reactionsByPort pr.1)) →
      ∀ pr ∈ (firePorts sch ps s).log,
        pr.2.Sublist (sch.reactionsByPort pr.1) := by
  intro ps
  induction ps with
  | nil => intro s h; simpa [firePorts] using h
  | cons p pt ih =>
    intro s h
    simp only [firePorts]
    apply ih
    intro pr hpr
    rcases List.mem_append.mp hpr with hin | hin
    · exact h pr hin
    · rcases List.mem_singleton.mp hin with rfl
      exact enqueueBatch_sublist _ _

/-- Firing reactions preserves the wave bookkeeping equation. -/
theorem waveRun_trace_inv (sch : Sched) (init : List Nat) :
    ∀ (fuel : Nat) (s : WaveSt),
      s.fired ++ s.todo = init ++ (s.log.map Prod.snd).flatten →
      (waveRun sch fuel s).fired ++ (waveRun sch fuel s).todo
        = init ++ ((waveRun sch fuel s).log.map Prod.snd).flatten := by
  intro fuel
  induction fuel with
  | zero => intro s h; simpa [waveRun] using h
  | succ f ih =>
    intro s h
    match hs : s.todo with
    | [] => simpa [waveRun, hs] using h
    | r :: rest =>
      simp only [waveRun, hs]
      apply ih
      apply firePorts_trace_inv
      simp only
      rw [List.append_assoc, List.singleton_append, ← hs, h]

/-- Firing reactions preserves the log batch property. -/
theorem waveRun_log_inv (sch : Sched) :
    ∀ (fuel : Nat) (s : WaveSt),
      (∀ pr ∈ s.log, pr.2.Sublist (sch.reactionsByPort pr.1)) →
      ∀ pr ∈ (waveRun sch fuel s).log,
        pr.2.Sublist (sch.reactionsByPort pr.1) := by
  intro fuel
  induction fuel with
  | zero => intro s h; simpa [waveRun] using h
  | succ f ih =>
    intro s h
    match hs : s.todo with
    | [] => simpa [waveRun, hs] using h
    | r :: rest =>
      simp only [waveRun, hs]
      apply ih
      apply firePorts_log_inv
      simpa using h

/-- C2 (amended): within one tag, the fired trace (once the FIFO empties) is
exactly the event's initial reaction list followed by the `enqueue_now`
batches in enqueue order, and each batch is an order-preserving sublist of
the `reactions_by_port` list supplied by the assembler (which lists the
port's descendants in topological order).  Topological firing order *across*
different batches, or against the event's initial list, is not guaranteed:
`enqueue_now` appends blindly to the FIFO. -/
theorem wave_trace_is_init_then_batches (sch : Sched) (fuel : Nat)
    (init : List Nat) :
    (waveRun sch fuel (waveInit init)).fired ++
        (waveRun sch fuel (waveInit init)).todo =
      init ++ ((waveRun sch fuel (waveInit init)).log.map Prod.snd).flatten ∧
    ∀ pr ∈ (waveRun sch fuel (waveInit init)).log,
      pr.2.Sublist (sch.reactionsByPort pr.1) := by
  constructor
  · apply waveRun_trace_inv
    simp [waveInit]
  · apply waveRun_log_inv
    simp [waveInit]

/-- A finite directed graph in the style of `petgraph::graph::DiGraph` as
used by `GraphWrapper` (flowgraph.rs): nodes are the indices
`0 .. nodeCount - 1` in insertion order, edges a list of (source, target)
index pairs in insertion order. -/
structure FGraph where
  nodeCount : Nat
  edges : List (Nat × Nat)

/-- Edge relation of the graph. -/
def FGraph.Edge (g : FGraph) (a b : Nat) : Prop := (a, b) ∈ g.edges

instance (g : FGraph) (a b : Nat) : Decidable (g.Edge a b) := by
  unfold FGraph.Edge; infer_instance

/-- Reachability: the reflexive-transitive closure of the edge relation
(the notion petgraph's `has_path_connecting` decides). -/
def FGraph.Reach (g : FGraph) : Nat → Nat → Prop :=
  Relation.ReflTransGen g.Edge

/-- `c` lies on a (nonempty) cycle: some edge leaves `c` and leads back. -/
def FGraph.InCycle (g : FGraph) (c : Nat) : Prop :=
  ∃ d, g.Edge c d ∧ g.Reach d c

/-- The graph contains a cycle. -/
def FGraph.HasCycle (g : FGraph) : Prop := ∃ c, g.InCycle c

/-- Well-formedness: every edge connects existing nodes (petgraph
guarantees this by construction of `add_edge`). -/
def FGraph.Wf (g : FGraph) : Prop :=
  ∀ e ∈ g.edges, e.1 < g.nodeCount ∧ e.2 < g.nodeCount

/-- Does `v` have an incoming edge whose source is still in `rem`? -/
def hasIncomingFrom (g : FGraph) (rem : List Nat) (v : Nat) : Bool :=
  g.edges.any (fun e => e.2 == v && rem.contains e.1)

/-- First remaining node with no incoming edge from the remaining set. -/
def pickFree (g : FGraph) (rem : List Nat) : Option Nat :=
  rem.find? (fun v => ! hasIncomingFrom g rem v)

/-- Some predecessor of `v` that is still in `rem` (first by edge insertion
order). -/
def predInRem (g : FGraph) (rem : List Nat) (v : Nat) : Option Nat :=
  ((g.edges.filter (fun e => e.2 == v && rem.contains e.1)).map Prod.fst).head?

/-- Walk backwards along in-`rem` predecessors until a node repeats; that
node lies on a cycle.  `visited` is the chain of nodes walked so far, most
recent first (the head is the current node). -/
def walkBack (g : FGraph) (rem : List Nat) : Nat → Nat → List Nat → Nat
  | 0, cur, _ => cur
  | fuel + 1, cur, visited =>
    match predInRem g rem cur with
    | none => cur
    | some p => if p ∈ visited then p else walkBack g rem fuel p (p :: visited)

/-- Kahn's algorithm with explicit fuel (one unit per removed node):
repeatedly move a node with no remaining predecessor from `rem` to the end
of `acc`; if none exists while nodes remain, the graph is cyclic and a
member of a cycle is reported.  This is a verified stand-in for
`petgraph::algo::toposort` (an external dependency of the repository, not
part of its sources): the theorems below establish exactly the contract the
repository relies on — `Ok` yields a topological order of all nodes, `Err`
names a node on a cycle. -/
def kahnAux (g : FGraph) : Nat → List Nat → List Nat → Except Nat (List Nat)
  | _, [], acc => .ok acc
  | 0, _ :: _, acc => .ok acc
  | fuel + 1, x :: xs, acc =>
    match pickFree g (x :: xs) with
    | some v => kahnAux g fuel ((x :: xs).erase v) (acc ++ [v])
    | none => .error (walkBack g (x :: xs) (xs.length + 2) x [x])

/-- Mirror of `AssemblyError` (assembler.rs lines 300-306), restricted to
the variants the verified fragment produces; `cyclicDependency` carries the
graph node named in the message `Dependency cycle containing {id}`. -/
inductive AErr
  | cyclicDependency (node : Nat)
  | invalidBinding
deriving DecidableEq

/-- Embeds `GraphWrapper::toposorted` (flowgraph.rs lines 60-68): run the
topological sort on all nodes; on a cycle produce `CyclicDependency` naming
the reported node. -/
def toposortedE (g : FGraph) : Except AErr (List Nat) :=
  (kahnAux g g.nodeCount (List.range g.nodeCount) []).mapError AErr.cyclicDependency

/-- A chain of edges, head first, reaches every one of its members from its
head. -/
theorem chain_head_reach (g : FGraph) :
    ∀ (l : List Nat) (h a : Nat), List.Chain' g.Edge (h :: l) →
      a ∈ h :: l → g.Reach h a := by
  intro l
  induction l with
  | nil =>
    intro h a _ ha
    rcases List.mem_singleton.mp ha with rfl
    exact Relation.ReflTransGen.refl
  | cons y t ih =>
    intro h a hch ha
    rcases List.chain'_cons.mp hch with ⟨hhy, hch'⟩
    rcases List.mem_cons.mp ha with rfl | ha'
    · exact Relation.ReflTransGen.refl
    · exact Relation.ReflTransGen.head hhy (ih y a hch' ha')

/-- `predInRem` returns a genuine in-`rem` predecessor. -/
theorem predInRem_spec (g : FGraph) (rem : List Nat) (v p : Nat)
    (h : predInRem g rem v = some p) : g.Edge p v ∧ p ∈ rem := by
  unfold predInRem at h
  have hmem : p ∈ (g.edges.filter (fun e => e.2 == v && rem.contains e.1)).map Prod.fst :=
    List.mem_of_mem_head? h
  rcases List.mem_map.mp hmem with ⟨e, hef, hep⟩
  have hpred := List.of_mem_filter hef
  have hedges := List.mem_of_mem_filter hef
  simp only [Bool.and_eq_true, beq_iff_eq] at hpred
  obtain ⟨hv, hcont⟩ := hpred
  have hrem : e.1 ∈ rem := by simpa using hcont
  subst hep
  refine ⟨?_, hrem⟩
  have : e = (e.1, v) := by
    rcases e with ⟨e1, e2⟩
    simp at hv ⊢
    exact hv
  rw [FGraph.Edge, ← this]
  exact hedges

/-- If every remaining node keeps an in-`rem` predecessor, `predInRem` never
fails on a remaining node. -/
theorem predInRem_total (g : FGraph) (rem : List Nat)
    (hstuck : ∀ v ∈ rem, ∃ p, p ∈ rem ∧ g.Edge p v) (cur : Nat)
    (hcur : cur ∈ rem) : ∃ p, predInRem g rem cur = some p := by
  rcases hstuck cur hcur with ⟨p, hp, hedge⟩
  unfold predInRem
  cases hh : ((g.edges.filter (fun e => e.2 == cur && rem.contains e.1)).map Prod.fst).head? with
  | some q => exact ⟨q, rfl⟩
  | none =>
    exfalso
    have hfil : (p, cur) ∈ g.edges.filter (fun e => e.2 == cur && rem.contains e.1) := by
      apply List.mem_filter.mpr
      refine ⟨hedge, ?_⟩
      simp [hp]
    have hne : (g.edges.filter (fun e => e.2 == cur && rem.contains e.1)).map Prod.fst ≠ [] := by
      intro hnil
      rw [List.map_eq_nil_iff] at hnil
      rw [hnil] at hfil
      exact List.not_mem_nil _ hfil
    rw [List.head?_eq_none_iff] at hh
    exact hne hh

/-- While the remaining set is "stuck" (every remaining node keeps an
in-`rem` predecessor), the backwards walk ends at a node lying on a cycle:
the walk can always step, the visited chain stays acyclic until a node
repeats, and a repeated node closes a cycle. -/
theorem walkBack_in_cycle (g : FGraph) (rem : List Nat)
    (hstuck : ∀ v ∈ rem, ∃ p, p ∈ rem ∧ g.Edge p v) :
    ∀ (fuel cur : Nat) (vt : List Nat),
      cur ∈ rem → List.Chain' g.Edge (cur :: vt) → (cur :: vt).Nodup →
      (∀ x ∈ cur :: vt, x ∈ rem) →
      rem.length + 1 ≤ fuel + (cur :: vt).length →
      g.InCycle (walkBack g rem fuel cur (cur :: vt)) := by
  intro fuel
  induction fuel with
  | zero =>
    intro cur vt hc hch hnd hsub hlen
    exfalso
    have hsp : List.Subperm (cur :: vt) rem := List.Nodup.subperm hnd hsub
    have := hsp.length_le
    simp only [List.length_cons] at hlen this
    omega
  | succ f ih =>
    intro cur vt hc hch hnd hsub hlen
    rcases predInRem_total g rem hstuck cur hc with ⟨p, hp⟩
    have hspec := predInRem_spec g rem cur p hp
    simp only [walkBack, hp]
    by_cases hpv : p ∈ cur :: vt
    · rw [if_pos hpv]
      exact ⟨cur, hspec.1, chain_head_reach g vt cur p hch hpv⟩
    · rw [if_neg hpv]
      apply ih p (cur :: vt) hspec.2
      · exact List.chain'_cons.mpr ⟨hspec.1, hch⟩
      · exact List.nodup_cons.mpr ⟨hpv, hnd⟩
      · intro x hx
        rcases List.mem_cons.mp hx with rfl | hx'
        · exact hspec.2
        · exact hsub x hx'
      · simp only [List.length_cons] at hlen ⊢
        omega

/-- Membership in the edge list, as the `Edge` relation. -/
theorem edge_of_pair (g : FGraph) (e : Nat × Nat) (h : e ∈ g.edges) :
    g.Edge e.1 e.2 := by
  rw [FGraph.Edge]
  rcases e with ⟨a, b⟩
  exact h

/-- If `toposort` reports an error node, that node lies on a cycle of the
graph. -/
theorem kahnAux_error_in_cycle (g : FGraph) :
    ∀ (fuel : Nat) (rem acc : List Nat) (c : Nat),
      kahnAux g fuel rem acc = .error c → g.InCycle c := by
  intro fuel
  induction fuel with
  | zero =>
    intro rem acc c h
    cases rem <;> simp [kahnAux] at h
  | succ f ih =>
    intro rem acc c h
    cases rem with
    | nil => simp [kahnAux] at h
    | cons x xs =>
      simp only [kahnAux] at h
      cases hp : pickFree g (x :: xs) with
      | some v =>
        rw [hp] at h
        exact ih _ _ _ h
      | none =>
        rw [hp] at h
        have hc : c = walkBack g (x :: xs) (xs.length + 2) x [x] := by
          have := h
          simp only [Except.error.injEq] at this
          exact this.symm
        subst hc
        have hstuck : ∀ v ∈ x :: xs, ∃ p, p ∈ x :: xs ∧ g.Edge p v := by
          intro v hv
          have hnone := List.find?_eq_none.mp hp v hv
          have htrue : hasIncomingFrom g (x :: xs) v = true := by
            by_contra hf
            exact hnone (by simp [hf])
          unfold hasIncomingFrom at htrue
          rcases List.any_eq_true.mp htrue with ⟨e, hee, hcond⟩
          simp only [Bool.and_eq_true, beq_iff_eq] at hcond
          refine ⟨e.1, by simpa using hcond.2, ?_⟩
          have := edge_of_pair g e hee
          rwa [hcond.1] at this
        apply walkBack_in_cycle g (x :: xs) hstuck (xs.length + 2) x []
        · exact List.mem_cons_self x xs
        · exact List.chain'_singleton x
        · exact List.nodup_singleton x
        · intro y hy
          rcases List.mem_singleton.mp hy with rfl
          exact List.mem_cons_self y xs
        · simp only [List.length_cons, List.length_singleton]
          omega

/-- Invariant of the Kahn iteration: `acc` and `rem` partition the node set,
both duplicate-free, and `acc` is edge-closed and topologically ordered so
far. -/
def KahnInv (g : FGraph) (rem acc : List Nat) : Prop :=
  acc.Nodup ∧ rem.Nodup ∧ (∀ a ∈ acc, a ∉ rem) ∧
  (∀ v, v < g.nodeCount ↔ (v ∈ acc ∨ v ∈ rem)) ∧
  (∀ e ∈ g.edges, e.2 ∈ acc → e.1 ∈ acc ∧ acc.indexOf e.1 < acc.indexOf e.2)

/-- If `toposort` succeeds, the output is a duplicate-free topological order
of all nodes: every edge goes from an earlier to a later position. -/
theorem kahnAux_ok_spec (g : FGraph) (hwf : g.Wf) :
    ∀ (fuel : Nat) (rem acc l : List Nat),
      rem.length ≤ fuel → KahnInv g rem acc →
      kahnAux g fuel rem acc = .ok l →
      l.Nodup ∧ (∀ v, v < g.nodeCount ↔ v ∈ l) ∧
      (∀ e ∈ g.edges, e.2 ∈ l → e.1 ∈ l ∧ l.indexOf e.1 < l.indexOf e.2) := by
  intro fuel
  induction fuel with
  | zero =>
    intro rem acc l hlen hinv h
    have hrem : rem = [] := List.length_eq_zero.mp (Nat.le_zero.mp hlen)
    subst hrem
    simp only [kahnAux, Except.ok.injEq] at h
    subst h
    obtain ⟨h1, -, -, h4, h5⟩ := hinv
    exact ⟨h1, fun v => by simpa using h4 v, h5⟩
  | succ f ih =>
    intro rem acc l hlen hinv h
    cases rem with
    | nil =>
      simp only [kahnAux, Except.ok.injEq] at h
      subst h
      obtain ⟨h1, -, -, h4, h5⟩ := hinv
      exact ⟨h1, fun v => by simpa using h4 v, h5⟩
    | cons x xs =>
      simp only [kahnAux] at h
      cases hp : pickFree g (x :: xs) with
      | none =>
        rw [hp] at h
        cases h
      | some v =>
        rw [hp] at h
        have hp' : (x :: xs).find? (fun w => ! hasIncomingFrom g (x :: xs) w) = some v := hp
        have hvmem : v ∈ x :: xs := List.mem_of_find?_eq_some hp'
        have hvfree := List.find?_some hp'
        have hnoin : ∀ e ∈ g.edges, e.2 = v → e.1 ∉ x :: xs := by
          intro e hee h2 h1in
          rw [Bool.not_eq_true'] at hvfree
          have htrue : hasIncomingFrom g (x :: xs) v = true := by
            unfold hasIncomingFrom
            apply List.any_eq_true.mpr
            exact ⟨e, hee, by simp [h2, h1in]⟩
          rw [htrue] at hvfree
          cases hvfree
        obtain ⟨hand, hremnd, hdisj, hmemiff, hord⟩ := hinv
        have hvnacc : v ∉ acc := fun hv => hdisj v hv hvmem
        apply ih ((x :: xs).erase v) (acc ++ [v]) l ?_ ?_ h
        · rw [List.length_erase_of_mem hvmem]
          simp only [List.length_cons] at hlen ⊢
          omega
        · refine ⟨?_, hremnd.erase v, ?_, ?_, ?_⟩
          · exact hand.append (List.nodup_singleton v)
              (fun a ha hb => (List.mem_singleton.mp hb ▸ hvnacc) ha)
          · intro a ha
            rcases List.mem_append.mp ha with ha' | ha'
            · intro hr
              exact hdisj a ha' (List.mem_of_mem_erase hr)
            · rcases List.mem_singleton.mp ha' with rfl
              exact hremnd.not_mem_erase
          · intro w
            rw [hmemiff w]
            constructor
            · rintro (hw | hw)
              · exact Or.inl (List.mem_append.mpr (Or.inl hw))
              · by_cases hwv : w = v
                · subst hwv
                  exact Or.inl (by simp)
                · exact Or.inr (hremnd.mem_erase_iff.mpr ⟨hwv, hw⟩)
            · rintro (hw | hw)
              · rcases List.mem_append.mp hw with h' | h'
                · exact Or.inl h'
                · rcases List.mem_singleton.mp h' with rfl
                  exact Or.inr hvmem
              · exact Or.inr (List.mem_of_mem_erase hw)
          · intro e hee h2mem
            rcases List.mem_append.mp h2mem with h2' | h2'
            · have hho := hord e hee h2'
              refine ⟨List.mem_append.mpr (Or.inl hho.1), ?_⟩
              rw [List.indexOf_append_of_mem hho.1, List.indexOf_append_of_mem h2']
              exact hho.2
            · have h2v : e.2 = v := List.mem_singleton.mp h2'
              have h1nrem : e.1 ∉ x :: xs := hnoin e hee h2v
              have h1lt : e.1 < g.nodeCount := (hwf e hee).1
              have h1acc : e.1 ∈ acc := by
                rcases (hmemiff e.1).mp h1lt with h' | h'
                · exact h'
                · exact absurd h' h1nrem
              refine ⟨List.mem_append.mpr (Or.inl h1acc), ?_⟩
              rw [List.indexOf_append_of_mem h1acc, h2v,
                List.indexOf_append_of_not_mem hvnacc]
              simp only [List.indexOf_cons_self, Nat.add_zero]
              exact List.indexOf_lt_length.mpr h1acc

/-- In a topologically ordered node list, reachability only moves forward. -/
theorem reach_indexOf_le (g : FGraph) (l : List Nat) (hwf : g.Wf)
    (hmem : ∀ v, v < g.nodeCount ↔ v ∈ l)
    (hord : ∀ e ∈ g.edges, e.2 ∈ l → e.1 ∈ l ∧ l.indexOf e.1 < l.indexOf e.2) :
    ∀ {a b : Nat}, g.Reach a b → l.indexOf a ≤ l.indexOf b := by
  intro a b hr
  induction hr with
  | refl => exact le_refl _
  | tail hr' hedge ih =>
    rename_i b' c'
    have h2 : c' ∈ l := (hmem c').mp (hwf (b', c') hedge).2
    have hstep := hord (b', c') hedge h2
    exact le_trans ih (le_of_lt hstep.2)

/-- A graph admitting a topological order of all its nodes has no cycle. -/
theorem topo_order_acyclic (g : FGraph) (l : List Nat) (hwf : g.Wf)
    (hmem : ∀ v, v < g.nodeCount ↔ v ∈ l)
    (hord : ∀ e ∈ g.edges, e.2 ∈ l → e.1 ∈ l ∧ l.indexOf e.1 < l.indexOf e.2) :
    ¬ g.HasCycle := by
  rintro ⟨c, d, hedge, hreach⟩
  have hd : d ∈ l := (hmem d).mp (hwf (c, d) hedge).2
  have h1 := hord (c, d) hedge hd
  have h2 := reach_indexOf_le g l hwf hmem hord hreach
  simp only at h1 h2
  omega

/-- C4: finishing assembly topologically sorts the data-flow graph.  For
every well-formed graph: if it contains a cycle, `toposorted` returns a
`CyclicDependency` error naming a node that is a member of a cycle; if it is
acyclic, the sort succeeds (and no `CyclicDependency` error is produced). -/
theorem toposorted_cycle_spec (g : FGraph) (hwf : g.Wf) :
    (g.HasCycle →
      ∃ c, toposortedE g = .error (.cyclicDependency c) ∧ g.InCycle c) ∧
    (¬ g.HasCycle → ∃ l, toposortedE g = .ok l) := by
  cases hk : kahnAux g g.nodeCount (List.range g.nodeCount) [] with
  | error c =>
    have hin : g.InCycle c := kahnAux_error_in_cycle g _ _ _ _ hk
    constructor
    · intro _
      refine ⟨c, ?_, hin⟩
      simp [toposortedE, hk, Except.mapError]
    · intro hnc
      exact absurd ⟨c, hin⟩ hnc
  | ok l =>
    have hinv : KahnInv g (List.range g.nodeCount) [] := by
      refine ⟨List.nodup_nil, List.nodup_range _, ?_, ?_, ?_⟩
      · intro a ha
        exact absurd ha (List.not_mem_nil a)
      · intro v
        simp [List.mem_range]
      · intro e _ h2
        exact absurd h2 (List.not_mem_nil _)
    have hspec := kahnAux_ok_spec g hwf g.nodeCount (List.range g.nodeCount) [] l
      (by simp) hinv hk
    obtain ⟨hnd, hmem, hord⟩ := hspec
    constructor
    · intro hcyc
      exact absurd hcyc (topo_order_acyclic g l hwf hmem hord)
    · intro _
      refine ⟨l, ?_⟩
      simp [toposortedE, hk, Except.mapError]

/-- C4 (witness): the one-node graph with a self loop is well-formed and
cyclic; the theorem yields the `CyclicDependency` error naming a cycle
member. -/
theorem toposorted_cycle_spec_witness :
    ∃ c, toposortedE ⟨1, [(0, 0)]⟩ = .error (.cyclicDependency c) ∧
      FGraph.InCycle ⟨1, [(0, 0)]⟩ c :=
  (toposorted_cycle_spec ⟨1, [(0, 0)]⟩
      (by intro e he; simp at he; simp [he])).1
    ⟨0, 0, by decide, Relation.ReflTransGen.refl⟩

/-- Node payloads of the data-flow graph, mirroring `FlowGraphElement`
(flowgraph.rs lines 249-253): a port or a reaction, identified by an
integer label standing for its global id. -/
inductive FgElt
  | portE (p : Nat)
  | reactionE (r : Nat)
deriving DecidableEq

/-- The data-flow `GraphWrapper`: node `i` carries `elems[i]` (nodes are
indexed in insertion order, as petgraph's `NodeIndex`), plus the edge list in
insertion order. -/
structure FlowGraphM where
  elems : List FgElt
  edges : List (Nat × Nat)

/-- The index graph underlying a flow graph. -/
def FlowGraphM.toFG (fg : FlowGraphM) : FGraph := ⟨fg.elems.length, fg.edges⟩

/-- Successors of a node (petgraph's `neighbors` iterates edges most recent
first). -/
def succsOf (g : FGraph) (u : Nat) : List Nat :=
  ((g.edges.filter (fun e => e.1 == u)).map Prod.snd).reverse

/-- Iterated successor-set expansion; with `nodeCount` rounds it reaches the
full descendant set. -/
def reachExpand (g : FGraph) : Nat → List Nat → List Nat
  | 0, s => s
  | f + 1, s =>
    reachExpand g f (s ++ ((s.flatMap (succsOf g)).filter (fun v => ! s.contains v)))

/-- Executable reachability test, embedding
`petgraph::algo::has_path_connecting` (used by `consume_to_schedulable`);
a node reaches itself. -/
def reachB (g : FGraph) (u v : Nat) : Bool :=
  (reachExpand g g.nodeCount [u]).contains v

/-- Does node `i` carry a reaction (`if let ReactionElt(id) = ...`)? -/
def isReactionAt (fg : FlowGraphM) (i : Nat) : Bool :=
  match fg.elems[i]? with
  | some (.reactionE _) => true
  | _ => false

/-- The reaction label carried by node `i` (0 if not a reaction node). -/
def reactionLabelAt (fg : FlowGraphM) (i : Nat) : Nat :=
  match fg.elems[i]? with
  | some (.reactionE r) => r
  | _ => 0

/-- Embeds the `port_descendants` computation of
`FlowGraph::consume_to_schedulable` (flowgraph.rs lines 163-175) for the
port at node `idx`, including its slip: the scan of followers starts at
`sorted[idx.index()..]` — the slice is taken from position `idx.index()`,
the node's *raw graph index*, not from the node's position in the sorted
vector — and keeps the reaction nodes connected to `idx`. -/
def portDescendants (fg : FlowGraphM) (sorted : List Nat) (idx : Nat) : List Nat :=
  ((sorted.drop idx).filter
      (fun f => isReactionAt fg f && reachB fg.toFG idx f)).map (reactionLabelAt fg)

/-- Embeds the `reactions_by_port_id` construction of
`consume_to_schedulable`: walk the toposorted nodes and record, for each
port node, its computed descendant list. -/
def reactionsByPortAssoc (fg : FlowGraphM) : Except AErr (List (Nat × List Nat)) :=
  match toposortedE fg.toFG with
  | .error e => .error e
  | .ok sorted =>
    .ok (sorted.filterMap (fun idx =>
      match fg.elems[idx]? with
      | some (FgElt.portE p) => some ((p, portDescendants fg sorted idx) : Nat × List Nat)
      | _ => none))

/-- Lookup into the snapshot: `Schedulable::get_downstream_reactions`
(defaulting to the empty list, as `NO_REACTIONS`). -/
def schedReactionsByPort (fg : FlowGraphM) (p : Nat) : List Nat :=
  match reactionsByPortAssoc fg with
  | .ok a => ((a.find? (fun pr => pr.1 == p)).map Prod.snd).getD []
  | .error _ => []

/-- A topology on which the snapshot drops a descendant: two reaction nodes
inserted before their common upstream port, so the port's raw node index (2)
exceeds its topological position (0).  Nodes in insertion order: reaction 0,
reaction 1, port 0; edges: port → reaction 0, port → reaction 1. -/
def skippedPortGraph : FlowGraphM :=
  ⟨[.reactionE 0, .reactionE 1, .portE 0], [(2, 0), (2, 1)]⟩

/-- C5 (code bug): in `skippedPortGraph` both reactions are reachable from
port 0, yet the snapshot records only `[1]`: the follower scan
`sorted[idx.index()..]` starts at the port's raw node index (2) instead of
its position in the sorted vector (0), skipping the reachable reaction 0.
This holds under *any* topological order of this graph (the port is always
first, so exactly one of the two following reactions survives the slice). -/
theorem port_descendants_incomplete :
    schedReactionsByPort skippedPortGraph 0 = [1] ∧
    skippedPortGraph.toFG.Reach 2 0 ∧
    skippedPortGraph.elems[2]? = some (FgElt.portE 0) ∧
    skippedPortGraph.elems[0]? = some (FgElt.reactionE 0) ∧
    (0 : Nat) ∉ schedReactionsByPort skippedPortGraph 0 :=
  ⟨by decide, Relation.ReflTransGen.single (by decide), by decide, by decide,
    by decide⟩

/-- The diamond-style topology for the firing-order scenario.  Nodes in
insertion order: reaction A (label 0, node 0), port P (label 0, node 1),
reaction C (label 2, node 2), port Q (label 1, node 3), reaction B (label 1,
node 4); edges: A→P, P→C, C→Q, Q→B.  The snapshot lists
`reactions_by_port[P] = [C, B]` and `reactions_by_port[Q] = [B]`, both in
topological order. -/
def diamondGraph : FlowGraphM :=
  ⟨[.reactionE 0, .portE 0, .reactionE 2, .portE 1, .reactionE 1],
   [(0, 1), (1, 2), (2, 3), (3, 4)]⟩

/-- The wave data for `diamondGraph`: reaction A (0) sets port P (0),
reaction C (2) sets port Q (1), reaction B (1) sets nothing; the
`reactions_by_port` lists are the ones computed by the assembler embedding
from the graph. -/
def diamondSched : Sched :=
  ⟨fun r => if r = 0 then [0] else if r = 2 then [1] else [],
   schedReactionsByPort diamondGraph⟩

/-- C2 (counterexample): an event carrying reactions [A, B] (both triggered
by an action) runs a wave whose fired trace is [A, B, C, B]: reaction B
(label 1, node 4) fires *before* reaction C (label 2, node 2) although the
data-flow DAG has the path C → Q → B.  `enqueue_now` appends blindly behind
the initial FIFO contents, and initial reactions are never marked in the
bitset, so B even fires twice.  Topological firing within a tag is violated. -/
theorem wave_violates_topological_order :
    (waveRun diamondSched 10 (waveInit [0, 1])).fired = [0, 1, 2, 1] ∧
    diamondGraph.toFG.Reach 2 4 ∧
    diamondGraph.elems[2]? = some (FgElt.reactionE 2) ∧
    diamondGraph.elems[4]? = some (FgElt.reactionE 1) ∧
    List.indexOf 1 [0, 1, 2, 1] < List.indexOf 2 [0, 1, 2, 1] :=
  ⟨by decide,
    Relation.ReflTransGen.head (b := 3) (by decide)
      (Relation.ReflTransGen.single (by decide)),
    by decide, by decide, by decide⟩

/-- C2 (witness): in the diamond wave, the logged batch for port P is
`[2, 1]`, an order-preserving sublist of `reactions_by_port[P] = [2, 1]`, as
the amended theorem states. -/
theorem wave_trace_is_init_then_batches_witness :
    ((0, [2, 1]) ∈ (waveRun diamondSched 10 (waveInit [0, 1])).log) ∧
      List.Sublist [2, 1] (diamondSched.reactionsByPort 0) :=
  ⟨by decide,
    (wave_trace_is_init_then_batches diamondSched 10 [0, 1]).2 (0, [2, 1]) (by decide)⟩

/-- Lookup-or-insert of a node, embedding `GraphWrapper::get_node`
(flowgraph.rs lines 37-45): an element already known keeps its index; a new
element is appended and gets the next index. -/
def getNodeFG (fg : FlowGraphM) (x : FgElt) : Nat × FlowGraphM :=
  match fg.elems.findIdx? (fun y => y == x) with
  | some i => (i, fg)
  | none => (fg.elems.length, ⟨fg.elems ++ [x], fg.edges⟩)

/-- Does node `i` have any incoming data-flow edge (`neighbors_directed(_,
Incoming).next().is_some()`)? -/
def hasIncomingAt (fg : FlowGraphM) (i : Nat) : Bool :=
  fg.edges.any (fun e => e.2 == i)

/-- Embeds `FlowGraph::add_port_dependency` (flowgraph.rs lines 98-110):
resolve (or insert) the two port nodes; if the downstream node already has an
incoming edge — it is bound to another port or affected by a reaction — fail
with `InvalidBinding` and leave the graph untouched; otherwise record the
edge upstream → downstream. -/
def addPortDependency (fg : FlowGraphM) (up down : Nat) : Except AErr FlowGraphM :=
  let r1 := getNodeFG fg (.portE up)
  let r2 := getNodeFG r1.2 (.portE down)
  if hasIncomingAt r2.2 r2.1 then .error .invalidBinding
  else .ok ⟨r2.2.elems, r2.2.edges ++ [(r1.1, r2.1)]⟩

/-- `get_node` never touches the edge list. -/
theorem getNodeFG_edges (fg : FlowGraphM) (x : FgElt) :
    (getNodeFG fg x).2.edges = fg.edges := by
  unfold getNodeFG
  cases fg.elems.findIdx? (fun y => y == x) <;> rfl

/-- A successful index lookup survives appending elements. -/
theorem findIdx?_append_some {α : Type} (p : α → Bool) (l l' : List α) (i : Nat)
    (h : l.findIdx? p = some i) : (l ++ l').findIdx? p = some i := by
  rw [List.findIdx?_append, h]
  rfl

/-- Modelled from the spec: bind status of a port (§3 of the specification;
the source file `runtime/ports.rs` is absent from the sources, only its
tests remain). -/
inductive BindStatus
  | unbound
  | boundUpstream
  | boundDownstream
deriving DecidableEq

/-- Modelled from the spec: the state of all ports (the missing
`runtime/ports.rs`).  Binding makes the downstream port share the upstream
port's storage cell ("by shared reference semantics", §4.2); each cell holds
an optional current value and the downstream dependency set.  `cellOf` maps
a port to its cell (initially its own), `status` is the port's bind
status. -/
structure PortsState (V : Type) where
  cellOf : Nat → Nat
  status : Nat → BindStatus
  cellVal : Nat → Option V
  cellDeps : Nat → List Nat

/-- Modelled from the spec: a fresh system of ports — every port unbound,
empty, with no recorded dependencies. -/
def initPorts (V : Type) : PortsState V :=
  ⟨fun p => p, fun _ => .unbound, fun _ => none, fun _ => []⟩

/-- Modelled from the spec: `set_downstream` of the missing ports module
(as exercised by `test/test_ports.rs`): record the given dependency set on
the port's cell. -/
def setDownstreamDeps {V : Type} (st : PortsState V) (p : Nat) (ds : List Nat) :
    PortsState V :=
  { st with cellDeps := fun c => if c = st.cellOf p then ds else st.cellDeps c }

/-- Modelled from the spec: `bind_ports(upstream, downstream)` of the
missing ports module (§4.2 and `test/test_ports.rs`).  Panics — modelled as
`none` — unless the downstream port is currently unbound
(`repeated_binding_panics`, `transitive_binding_in_non_topo_order_panics`).
On success the downstream port adopts the upstream's cell (so later writes
to the upstream are observable downstream), the downstream's previously
recorded dependencies are appended to the upstream cell's dependency set and
the downstream's old cell is cleared, and the bind statuses are updated. -/
def bindState {V : Type} (st : PortsState V) (up down : Nat) : PortsState V :=
  { cellOf := fun p => if p = down then st.cellOf up else st.cellOf p,
    status := fun p =>
      if p = down then .boundDownstream
      else if p = up then
        (if st.status up = .unbound then .boundUpstream else st.status up)
      else st.status p,
    cellVal := st.cellVal,
    cellDeps := fun c =>
      if c = st.cellOf up then st.cellDeps (st.cellOf up) ++ st.cellDeps (st.cellOf down)
      else if c = st.cellOf down then [] else st.cellDeps c }

/-- Modelled from the spec: the guarded entry point of `bind`: panic
(`none`) unless the downstream port is currently unbound. -/
def bindPorts {V : Type} (st : PortsState V) (up down : Nat) :
    Option (PortsState V) :=
  if st.status down ≠ .unbound then none
  else some (bindState st up down)

/-- Modelled from the spec: `set(value)` — store the value in the port's
cell (§4.2; `set_impl` in the tests). -/
def setPort {V : Type} (st : PortsState V) (p : Nat) (v : V) : PortsState V :=
  { st with cellVal := fun c => if c = st.cellOf p then some v else st.cellVal c }

/-- Modelled from the spec: `get()` — the optional current value of the
port's cell (§4.2). -/
def getPort {V : Type} (st : PortsState V) (p : Nat) : Option V :=
  st.cellVal (st.cellOf p)

/-- Modelled from the spec: `get_downstream_deps()` — the dependency set
recorded on the port's cell. -/
def depsOf {V : Type} (st : PortsState V) (p : Nat) : List Nat :=
  st.cellDeps (st.cellOf p)

/-- Bind a chain of ports in topological order: `chainBinds st [p0, p1, p2]`
performs `bind(p0, p1)` then `bind(p1, p2)`. -/
def chainBinds {V : Type} : PortsState V → List Nat → Option (PortsState V)
  | st, [] => some st
  | st, [_] => some st
  | st, a :: b :: rest =>
    match bindPorts st a b with
    | none => none
    | some st' => chainBinds st' (b :: rest)

/-- C7: a port that already has an incoming data-flow edge (an upstream
binding or a reaction affecting it) cannot be bound again: the
assembler-level `add_port_dependency` returns `InvalidBinding` (leaving the
graph unchanged — no edge is added), and the raw port-level rebinding
panics (`bind_ports` returns `none`), per the spec and
`repeated_binding_panics`. -/
theorem rebind_rejected (fg : FlowGraphM) (up down di : Nat)
    (hdi : fg.elems.findIdx? (fun y => y == FgElt.portE down) = some di)
    (hinc : hasIncomingAt fg di = true)
    {V : Type} (st : PortsState V) (pu pd : Nat)
    (hst : st.status pd ≠ BindStatus.unbound) :
    addPortDependency fg up down = .error .invalidBinding ∧
      bindPorts st pu pd = none := by
  constructor
  · have helse : (getNodeFG fg (FgElt.portE up)).2.elems = fg.elems ∨
        (getNodeFG fg (FgElt.portE up)).2.elems = fg.elems ++ [FgElt.portE up] := by
      unfold getNodeFG
      cases fg.elems.findIdx? (fun y => y == FgElt.portE up) <;> simp
    have hdi2 : (getNodeFG fg (FgElt.portE up)).2.elems.findIdx?
        (fun y => y == FgElt.portE down) = some di := by
      rcases helse with h | h <;> rw [h]
      · exact hdi
      · exact findIdx?_append_some _ _ _ _ hdi
    have hnodeGen : ∀ (fg2 : FlowGraphM),
        fg2.elems.findIdx? (fun y => y == FgElt.portE down) = some di →
        getNodeFG fg2 (FgElt.portE down) = (di, fg2) := by
      intro fg2 h2
      unfold getNodeFG
      rw [h2]
    have hnode : getNodeFG (getNodeFG fg (FgElt.portE up)).2 (FgElt.portE down)
        = (di, (getNodeFG fg (FgElt.portE up)).2) := hnodeGen _ hdi2
    have hedges : (getNodeFG fg (FgElt.portE up)).2.edges = fg.edges :=
      getNodeFG_edges fg _
    have hinc2 : hasIncomingAt (getNodeFG fg (FgElt.portE up)).2 di = true := by
      unfold hasIncomingAt
      rw [hedges]
      exact hinc
    simp only [addPortDependency, hnode, hinc2, if_pos]
  · simp [bindPorts, hst]

/-- C7 (witness): in a graph where port 1 already has the incoming edge
0 → 1, binding it again is rejected, and the raw rebinding of an
already-bound port panics. -/
theorem rebind_rejected_witness :
    addPortDependency ⟨[FgElt.portE 0, FgElt.portE 1], [(0, 1)]⟩ 0 1
        = .error .invalidBinding ∧
      bindPorts
        (⟨fun p => if p = 1 then 0 else p,
          fun p => if p = 1 then .boundDownstream
            else if p = 0 then .boundUpstream else .unbound,
          fun _ => none, fun _ => []⟩ : PortsState Nat) 0 1 = none :=
  rebind_rejected ⟨[FgElt.portE 0, FgElt.portE 1], [(0, 1)]⟩ 0 1 1
    (by decide) (by decide) _ 0 1 (by decide)

/-- Binding a chain of fresh (unbound, pairwise distinct) ports in
topological order succeeds and makes every port of the chain share the head
port's storage cell, without touching any value. -/
theorem chainBinds_cells {V : Type} :
    ∀ (l : List Nat) (st : PortsState V) (p : Nat),
      (∀ q ∈ l, st.status q = .unbound) → l.Nodup → p ∉ l →
      ∃ st', chainBinds st (p :: l) = some st' ∧
        st'.cellVal = st.cellVal ∧
        (∀ x, x ∉ l → st'.cellOf x = st.cellOf x) ∧
        st'.cellOf ((p :: l).getLast (List.cons_ne_nil p l)) = st.cellOf p := by
  intro l
  induction l with
  | nil =>
    intro st p _ _ _
    exact ⟨st, rfl, rfl, fun x _ => rfl, rfl⟩
  | cons b rest ih =>
    intro st p hstat hnd hp
    obtain ⟨hbrest, hrestnd⟩ := List.nodup_cons.mp hnd
    have hb : st.status b = .unbound := hstat b (List.mem_cons_self b rest)
    have hbind : bindPorts st p b = some (bindState st p b) := by
      simp [bindPorts, hb]
    have hstat' : ∀ q ∈ rest, (bindState st p b).status q = .unbound := by
      intro q hq
      have hqb : q ≠ b := fun h => hbrest (h ▸ hq)
      have hqp : q ≠ p := fun h => hp (h ▸ List.mem_cons_of_mem b hq)
      simp only [bindState, if_neg hqb, if_neg hqp]
      exact hstat q (List.mem_cons_of_mem b hq)
    obtain ⟨st', hchain, hval, hcells, hlast⟩ :=
      ih (bindState st p b) b hstat' hrestnd hbrest
    refine ⟨st', ?_, ?_, ?_, ?_⟩
    · simp only [chainBinds, hbind]
      exact hchain
    · rw [hval]
      rfl
    · intro x hx
      have hxrest : x ∉ rest := fun h => hx (List.mem_cons_of_mem b h)
      have hxb : x ≠ b := fun h => hx (h ▸ List.mem_cons_self b rest)
      rw [hcells x hxrest]
      simp only [bindState, if_neg hxb]
    · have hlast2 : (p :: b :: rest).getLast (List.cons_ne_nil p (b :: rest))
          = (b :: rest).getLast (List.cons_ne_nil b rest) :=
        List.getLast_cons (List.cons_ne_nil b rest)
      rw [hlast2, hlast]
      simp [bindState]

/-- C8: for a chain of pairwise distinct ports bound in topological order
starting from a fresh port system — the head transitively upstream of the
last — every `get` returns `None` before any `set`, and after `set(P, v)` on
the head P, `get(Q)` on the last port Q returns `Some v` within the same
tag. -/
theorem port_propagation {V : Type} (p : Nat) (l : List Nat) (v : V)
    (hnd : (p :: l).Nodup) :
    ∃ st, chainBinds (initPorts V) (p :: l) = some st ∧
      (∀ q : Nat, getPort st q = none) ∧
      getPort (setPort st p v) ((p :: l).getLast (List.cons_ne_nil p l))
        = some v := by
  obtain ⟨hp, hl⟩ := List.nodup_cons.mp hnd
  obtain ⟨st, hchain, hval, hcells, hlast⟩ :=
    chainBinds_cells l (initPorts V) p (fun q _ => rfl) hl hp
  refine ⟨st, hchain, ?_, ?_⟩
  · intro q
    unfold getPort
    rw [hval]
    rfl
  · unfold getPort setPort
    simp only
    rw [hlast, hcells p hp]
    simp [initPorts]

/-- C8 (witness): binding 0 → 1 → 2 from a fresh system, every port reads
`None`; after `set(0, 5)` the transitively bound port 2 reads `Some 5`. -/
theorem port_propagation_witness :
    ∃ st, chainBinds (initPorts Nat) (0 :: [1, 2]) = some st ∧
      (∀ q : Nat, getPort st q = none) ∧
      getPort (setPort st 0 5) ((0 :: [1, 2]).getLast (List.cons_ne_nil 0 [1, 2]))
        = some 5 :=
  port_propagation 0 [1, 2] 5 (by decide)

/-- C9: binding `up` to `down` (with `down` unbound and the two ports not
already sharing a cell) succeeds, and afterwards the upstream's dependency
set is exactly its old set followed by the downstream's old set, while the
downstream's own cell is cleared (its set is forwarded upstream). -/
theorem bind_adopts_dependencies {V : Type} (st : PortsState V) (up down : Nat)
    (hdown : st.status down = .unbound)
    (hcell : st.cellOf up ≠ st.cellOf down) :
    ∃ st', bindPorts st up down = some st' ∧
      depsOf st' up = depsOf st up ++ depsOf st down ∧
      st'.cellDeps (st.cellOf down) = [] := by
  have hne : up ≠ down := fun h => hcell (by rw [h])
  refine ⟨bindState st up down, by simp [bindPorts, hdown], ?_, ?_⟩
  · unfold depsOf bindState
    simp only [if_neg hne, if_pos]
  · unfold bindState
    simp only
    rw [if_neg (Ne.symm hcell)]
    simp

/-- The port state of test `dependencies_are_adopted_by_upstream_when_binding`:
fresh ports, port 0 carrying dependency set [0] and port 1 carrying
[1, 2, 3]. -/
def adoptTestState : PortsState Nat :=
  setDownstreamDeps (setDownstreamDeps (initPorts Nat) 0 [0]) 1 [1, 2, 3]

/-- C9 (witness): binding port 0 upstream of port 1 in `adoptTestState`
yields upstream dependencies `[0] ++ [1, 2, 3] = [0, 1, 2, 3]`, as the test
asserts. -/
theorem bind_adopts_dependencies_witness :
    ∃ st', bindPorts adoptTestState 0 1 = some st' ∧
      depsOf st' 0 = depsOf adoptTestState 0 ++ depsOf adoptTestState 1 ∧
      st'.cellDeps (adoptTestState.cellOf 1) = [] :=
  bind_adopts_dependencies adoptTestState 0 1 (by decide) (by decide)

/-- Port kind (`PortKind` in `reactors/ports.rs`). -/
inductive PKind
  | input
  | output
deriving DecidableEq

/-- Where a port is declared, relative to the assembling reactor: directly
in this reactor, in the k-th direct sub-reactor, or elsewhere in the
hierarchy. -/
inductive PortLoc
  | thisReactor
  | directSub (k : Nat)
  | elsewhere
deriving DecidableEq

/-- A port as seen by the structural checks of `Assembler::bind_ports`: its
kind, its location relative to the current assembler, and its global id. -/
structure PortRef where
  kind : PKind
  loc : PortLoc
  gid : Nat
deriving DecidableEq

/-- Modelled from the spec: `GlobalId::is_in_reactor(&self.id)` (the file
`reactors/id.rs` is absent) — the port is declared directly in the current
reactor. -/
def isInReactor (p : PortRef) : Bool := p.loc == .thisReactor

/-- Modelled from the spec: `is_in_direct_subreactor_of(&self.id)` — the
port is declared in a direct sub-reactor of the current reactor. -/
def isInDirectSub (p : PortRef) : Bool :=
  match p.loc with
  | .directSub _ => true
  | _ => false

/-- Is the port an input port? -/
def PortRef.isInputP (p : PortRef) : Bool := p.kind == .input

/-- Is the port an output port? -/
def PortRef.isOutputP (p : PortRef) : Bool := p.kind == .output

/-- The `InvalidBinding` causes of `Assembler::bind_ports`, named after the
numbered rules in its documentation comment. -/
inductive BindCause
  | r1
  | r1i
  | r1ii
  | r2
  | r2i
  | r2ii
deriving DecidableEq

/-- Embeds the structural checks of `Assembler::bind_ports` (assembler.rs
lines 123-148) exactly as written — including the conditions that test
`upstream` where the documented rules speak of `downstream`.  Returns the
`InvalidBinding` cause, or `none` when the match falls through and the
binding is accepted. -/
def bindPortsCheck (up down : PortRef) : Option BindCause :=
  match up.kind with
  | .input =>
    if ! isInReactor up then some .r1
    else if down.isInputP && ! isInDirectSub up then some .r1i
    else if down.isOutputP && ! isInReactor up then some .r1ii
    else none
  | .output =>
    if ! isInDirectSub up then some .r2
    else if down.isInputP && (! isInDirectSub up || down.gid == up.gid) then
      some .r2i
    else if down.isOutputP && ! isInReactor up then some .r2ii
    else none

/-- The structural rules as documented on `bind_ports` (and in the spec,
§4.4): either the upstream is an input of this reactor and the downstream an
input of a direct sub-reactor or an output of this reactor; or the upstream
is an output of a direct sub-reactor and the downstream an input of another
direct sub-reactor or an output of this reactor. -/
def bindValidSpecB (up down : PortRef) : Bool :=
  (up.isInputP && isInReactor up &&
    ((down.isInputP && isInDirectSub down) ||
     (down.isOutputP && isInReactor down))) ||
  (up.isOutputP && isInDirectSub up &&
    ((down.isInputP && isInDirectSub down && ! (up.loc == down.loc)) ||
     (down.isOutputP && isInReactor down)))

/-- C6 (code bug): the checks of `bind_ports` test the wrong port.  Binding
an input of this reactor to an input of a direct sub-reactor — the
documented rule 1.i, valid per the spec — is rejected with cause 1.i,
because the code tests `upstream.is_in_direct_subreactor_of` instead of
`downstream`'s location; and binding the same upstream to an output port
declared outside this reactor — invalid per rule 1.ii — is accepted,
because the 1.ii condition re-tests `upstream.is_in_reactor`.  (The claim's
"in particular" instance — input upstream with a downstream input not in a
direct sub-reactor is rejected — does hold, since the buggy 1.i check
rejects every input downstream.) -/
theorem bind_ports_checks_wrong_port :
    bindPortsCheck ⟨.input, .thisReactor, 0⟩ ⟨.input, .directSub 0, 1⟩
        = some .r1i ∧
      bindValidSpecB ⟨.input, .thisReactor, 0⟩ ⟨.input, .directSub 0, 1⟩
        = true ∧
      bindPortsCheck ⟨.input, .thisReactor, 0⟩ ⟨.output, .elsewhere, 2⟩
        = none ∧
      bindValidSpecB ⟨.input, .thisReactor, 0⟩ ⟨.output, .elsewhere, 2⟩
        = false ∧
      bindPortsCheck ⟨.input, .thisReactor, 0⟩ ⟨.input, .elsewhere, 3⟩
        = some .r1i := by
  decide
